import Mathlib

/-!
Verification of `examples/encode_oneshot.cc` (libjxl one-shot PFM → JXL example).

The development shallowly embeds the two protocol components of the program:

* `ReadPFM` — the Portable FloatMap reader (source lines 37-147).  File bytes
  are modelled as `List Nat`; a 32-bit float sample is modelled as its four
  raw bytes in memory order (`F32`), since the reader only ever `memcpy`s
  floats and never interprets them numerically.  `uint32_t` arithmetic is
  Nat arithmetic with an explicit `% U32` at every operation, mirroring the
  C integer promotions on the line being modelled.  `std::stoi` throwing is
  modelled by a distinct `exn` result constructor.

* `EncodeJxlOneshot` — the output drain loop (source lines 157-211).  The
  opaque encoder (`JxlEncoderProcessOutput`) is modelled as a pure function
  of the call index and the available capacity, returning the bytes it
  writes into the offered region together with its status.  The loop also
  returns the chronological log of the byte chunks the encoder wrote; the
  log is a ghost observer used only to state specifications and does not
  influence the buffer computation.  The `JxlThreadParallelRunnerDestroy` /
  `JxlEncoderDestroy` resource-release calls are recorded as booleans in the
  outcome of each exit path.

File I/O (lines 39-74) is outside the model: every property under study is
a function of the in-memory file bytes.
-/

/-- `2^32`, the modulus of `uint32_t` arithmetic. -/
def U32 : Nat := 2 ^ 32

/-- `INT_MAX` for 32-bit `int`, the upper bound accepted by `std::stoi`. -/
def INT_MAX : Nat := 2 ^ 31 - 1

/-- C locale `isspace`, used by `std::stoi` to skip leading whitespace. -/
def isSpace (b : Nat) : Bool := b == 32 || (decide (9 ≤ b) && decide (b ≤ 13))

/-- ASCII decimal digit test. -/
def isDigit (b : Nat) : Bool := decide (48 ≤ b) && decide (b ≤ 57)

/-- Value of a string of ASCII digits (most significant first). -/
def digitsToNat (ds : List Nat) : Nat := ds.foldl (fun acc d => acc * 10 + (d - 48)) 0

/-- Result of `std::stoi`: a value, or a thrown exception
(`std::invalid_argument` when no digits are found, `std::out_of_range` when
the value does not fit in `int`). -/
inductive StoiResult where
  | ok (v : Int)
  | exn
deriving DecidableEq

/-- `std::stoi` on a byte string: skip leading whitespace, read an optional
sign, then at least one decimal digit; the value must fit in a 32-bit `int`. -/
def stoi (s : List Nat) : StoiResult :=
  let s1 := s.dropWhile isSpace
  let signed : Bool × List Nat :=
    match s1 with
    | [] => (false, [])
    | b :: rest => if b = 45 then (true, rest) else if b = 43 then (false, rest) else (false, b :: rest)
  let ds := signed.2.takeWhile isDigit
  if ds.isEmpty then .exn
  else if signed.1 then
    if digitsToNat ds ≤ 2 ^ 31 then .ok (-(digitsToNat ds : Int)) else .exn
  else
    if digitsToNat ds ≤ INT_MAX then .ok (digitsToNat ds) else .exn

/-- C conversion of an `int` value to `uint32_t` (reduction modulo `2^32`). -/
def toUInt32 (v : Int) : Nat := (v % (2 ^ 32 : Int)).toNat

/-- `std::getline(stream, token, delim)`: the token is everything before the
first delimiter; the delimiter itself is consumed. -/
def getline (s : List Nat) (delim : Nat) : List Nat × List Nat :=
  (s.takeWhile (fun b => b != delim), (s.dropWhile (fun b => b != delim)).drop 1)

/-- A 32-bit float sample, represented by its four bytes in memory order
(the reader moves floats only with `memcpy`). -/
abbrev F32 := List Nat

/-- The bytes of `0.0f`, the value `std::vector<float>::resize` fills with. -/
def f32zero : F32 := [0, 0, 0, 0]

/-- The four bytes `memcpy(_, data + off, sizeof(float))` reads. -/
def readF32 (data : List Nat) (off : Nat) : F32 :=
  [data.getD off 0, data.getD (off + 1) 0, data.getD (off + 2) 0, data.getD (off + 3) 0]

/-- The bytes of the signature token `PF`. -/
def pfSig : List Nat := [80, 70]

/-- The bytes of the big-endian scale token `1.0`. -/
def tok10 : List Nat := [49, 46, 48]

/-- The bytes of the little-endian scale token `-1.0`. -/
def tokNeg10 : List Nat := [45, 49, 46, 48]

/-- The parsed PFM header: dimensions (as the `uint32_t` out-parameters
`*xsize`, `*ysize`), declared endianness, and the byte offset at which the
pixel payload begins (source lines 114-115). -/
structure PFMHeader where
  xsize : Nat
  ysize : Nat
  littleEndian : Bool
  off : Nat
deriving DecidableEq

/-- Result of header parsing: `err` models `return false`, `exn` models an
exception escaping from `std::stoi`. -/
inductive HeaderResult where
  | ok (hdr : PFMHeader)
  | err
  | exn
deriving DecidableEq

/-- Source lines 80-115: parse the `PF` line, the `<width> <height>` line
(width delimited by a space, height by a newline), and the endianness line. -/
def parsePFMHeader (data : List Nat) : HeaderResult :=
  let p1 := getline data 10
  if p1.1 ≠ pfSig then .err
  else
    let p2 := getline p1.2 32
    match stoi p2.1 with
    | .exn => .exn
    | .ok xv =>
      let p3 := getline p2.2 10
      match stoi p3.1 with
      | .exn => .exn
      | .ok yv =>
        let p4 := getline p3.2 10
        if p4.1 = tok10 then
          .ok ⟨toUInt32 xv, toUInt32 yv, false,
               p1.1.length + 1 + p2.1.length + 1 + p3.1.length + 1 + p4.1.length + 1⟩
        else if p4.1 = tokNeg10 then
          .ok ⟨toUInt32 xv, toUInt32 yv, true,
               p1.1.length + 1 + p2.1.length + 1 + p3.1.length + 1 + p4.1.length + 1⟩
        else .err

/-- Source lines 139-141, one iteration of the innermost loop:
`memcpy(pixels->data() + (y * *xsize + x) * 3 + c, data.data() + offset, 4);
offset += 4;`.  The destination index is computed in `uint32_t`, hence the
`% U32` after every operation; an out-of-range `List.set` is a no-op (the C
program would have undefined behaviour there). -/
def copySample (w y x c : Nat) (data : List Nat) (st : Nat × List F32) : Nat × List F32 :=
  (st.1 + 4, st.2.set (((y * w % U32 + x) % U32 * 3 % U32 + c) % U32) (readF32 data st.1))

/-- The `x`/`c` loops of source lines 137-143 over an explicit list of `x`
values (used with `List.range w`). -/
def copyRowAux (w y : Nat) (data : List Nat) (xs : List Nat) (st : Nat × List F32) :
    Nat × List F32 :=
  xs.foldl (fun st x => (List.range 3).foldl (fun st c => copySample w y x c data st) st) st

/-- Source lines 137-143: the body of the `y` loop, i.e. `for (x) for (c)`. -/
def copyRowX (w y : Nat) (data : List Nat) (st : Nat × List F32) : Nat × List F32 :=
  copyRowAux w y data (List.range w) st

/-- Source lines 136-144: `for (int y = *ysize - 1; y >= 0; y--) ...`.
`copyRows w data h` runs the body at `y = h-1, h-2, ..., 0`; for `h = 0`
the loop body never runs (in C, `y` starts negative). -/
def copyRows (w : Nat) (data : List Nat) : Nat → Nat × List F32 → Nat × List F32
  | 0, st => st
  | h + 1, st => copyRows w data h (copyRowX w h data st)

/-- `std::vector<float>::resize`: truncate, or pad with `0.0f`. -/
def vecResizeF (v : List F32) (n : Nat) : List F32 :=
  if n ≤ v.length then v.take n else v ++ List.replicate (n - v.length) f32zero

/-- Result of `ReadPFM`: `ok` carries the dimension out-parameters, `err`
models `return false`, `exn` models an exception escaping from `std::stoi`. -/
inductive ReadResult where
  | ok (xsize ysize : Nat)
  | err
  | exn
deriving DecidableEq

/-- Source lines 37-147 from the point where the file bytes are in memory:
parse the header, check `data.size() == *ysize * *xsize * 3 * 4 + offset`
(the product computed in `uint32_t`), check the declared endianness against
the host, resize the pixel vector to `*ysize * *xsize * 3` (again `uint32_t`)
and run the row-reversing copy loop.  The function threads the caller's
`pixels` vector so that the untouched-on-failure behaviour is observable. -/
def ReadPFM (hostLittle : Bool) (data : List Nat) (pixels : List F32) :
    ReadResult × List F32 :=
  match parsePFMHeader data with
  | .exn => (.exn, pixels)
  | .err => (.err, pixels)
  | .ok hdr =>
    if data.length ≠ hdr.ysize * hdr.xsize % U32 * 3 % U32 * 4 % U32 + hdr.off then
      (.err, pixels)
    else if hostLittle ≠ hdr.littleEndian then (.err, pixels)
    else
      (.ok hdr.xsize hdr.ysize,
        (copyRows hdr.xsize data hdr.ysize
          (hdr.off, vecResizeF pixels (hdr.ysize * hdr.xsize % U32 * 3 % U32))).2)

/-- Status codes of the encoder collaborator (`JxlEncoderStatus`). -/
inductive JxlEncoderStatus where
  | success
  | needMoreOutput
  | error
deriving DecidableEq

/-- One reply of `JxlEncoderProcessOutput`: the bytes it writes into the
offered region, and its status. -/
structure EncReply where
  bytes : List Nat
  status : JxlEncoderStatus

/-- The opaque, stateful encoder, modelled as a function of the call index
and of the capacity offered (`avail_out`). -/
abbrev Encoder := Nat → Nat → EncReply

/-- The drain state of source lines 188-190: the `compressed` vector, the
cursor `next_out` kept as an offset from `compressed->data()`, and
`avail_out`. -/
structure DrainState where
  compressed : List Nat
  next_out : Nat
  avail_out : Nat
deriving DecidableEq

/-- `std::vector<uint8_t>::resize`: truncate, or pad with zero bytes. -/
def vecResize (v : List Nat) (n : Nat) : List Nat :=
  if n ≤ v.length then v.take n else v ++ List.replicate (n - v.length) 0

/-- Overwrite `buf[pos .. pos + bytes.length)` with `bytes` (the effect of
the encoder writing into the region starting at `next_out`). -/
def writeAt (buf : List Nat) (pos : Nat) (bytes : List Nat) : List Nat :=
  buf.take pos ++ bytes ++ buf.drop (pos + bytes.length)

/-- Source line 193, `JxlEncoderProcessOutput(enc, &next_out, &avail_out)`:
the encoder writes its bytes at the cursor, advances `next_out` and
decreases `avail_out`.  Also returns the chunk written (ghost). -/
def processOutput (enc : Encoder) (i : Nat) (st : DrainState) :
    JxlEncoderStatus × DrainState × List Nat :=
  let r := enc i st.avail_out
  (r.status,
   ⟨writeAt st.compressed st.next_out r.bytes,
    st.next_out + r.bytes.length,
    st.avail_out - r.bytes.length⟩,
   r.bytes)

/-- Source lines 195-198: `offset = next_out - compressed->data();
compressed->resize(compressed->size() * 2); next_out = data + offset;
avail_out = compressed->size() - offset;`. -/
def growBuffer (st : DrainState) : DrainState :=
  let offset := st.next_out
  let grown := vecResize st.compressed (st.compressed.length * 2)
  ⟨grown, offset, grown.length - offset⟩

/-- Source lines 191-200, the
`while (process_result == JXL_ENC_NEED_MORE_OUTPUT)` loop, by recursion on
fuel (`none` = the loop did not terminate within `fuel` calls).  `i` is the
index of the next encoder call; the returned list is the chronological ghost
log of the chunks the encoder wrote. -/
def drainLoop (enc : Encoder) :
    Nat → Nat → DrainState → Option (JxlEncoderStatus × DrainState × List (List Nat))
  | 0, _, _ => none
  | fuel + 1, i, st =>
    let step := processOutput enc i st
    if step.1 = .needMoreOutput then
      match drainLoop enc fuel (i + 1) (growBuffer step.2.1) with
      | none => none
      | some (res, st', log) => some (res, st', step.2.2 :: log)
    else
      some (step.1, step.2.1, [step.2.2])

/-- Source lines 188-207: resize the buffer to the starting capacity (the
source uses the constant 64), run the drain loop, truncate to
`next_out - compressed->data()`, and compare the final status with
`JXL_ENC_SUCCESS`.  The starting capacity is a parameter so that the
independence from the chosen constant can be stated. -/
def encodeDrain (startCap : Nat) (enc : Encoder) (fuel : Nat) (compressed : List Nat) :
    Option (Bool × List Nat × List (List Nat)) :=
  let c := vecResize compressed startCap
  match drainLoop enc fuel 0 ⟨c, 0, c.length - 0⟩ with
  | none => none
  | some (res, st, log) =>
    some (decide (res = .success), vecResize st.compressed st.next_out, log)

/-- The observable outcome of one run of `EncodeJxlOneshot`: its return
value, whether `JxlThreadParallelRunnerDestroy(runner)` and
`JxlEncoderDestroy(enc)` were called before returning, and the final
contents of the caller's `compressed` vector. -/
structure EncodeOutcome where
  ok : Bool
  runnerDestroyed : Bool
  encDestroyed : Bool
  compressed : List Nat
deriving DecidableEq

/-- Source lines 157-211.  The results of `JxlEncoderSetParallelRunner`,
`JxlEncoderSetDimensions` and `JxlEncoderAddImageFrame` are abstracted as
booleans; the pixel data itself does not influence this control flow.  Each
early-failure path (lines 163-169, 172-177, 179-186, 202-207) destroys both
the runner and the encoder; the success path (lines 209-210) calls only
`JxlEncoderDestroy(enc)`. -/
def EncodeJxlOneshot (setRunnerOk setDimsOk addFrameOk : Bool) (enc : Encoder)
    (fuel : Nat) (compressed : List Nat) : Option EncodeOutcome :=
  if ¬setRunnerOk then some ⟨false, true, true, compressed⟩
  else if ¬setDimsOk then some ⟨false, true, true, compressed⟩
  else if ¬addFrameOk then some ⟨false, true, true, compressed⟩
  else
    match encodeDrain 64 enc fuel compressed with
    | none => none
    | some (ok, final, _log) =>
      if ok then some ⟨true, false, true, final⟩
      else some ⟨false, true, true, final⟩

/-- Decimal digit string of `n`, most significant first (fuel-indexed so the
recursion is structural; `natToken` supplies sufficient fuel). -/
def natTokenAux : Nat → Nat → List Nat
  | 0, _ => []
  | fuel + 1, n => if n < 10 then [n + 48] else natTokenAux fuel (n / 10) ++ [n % 10 + 48]

/-- Decimal digit string of `n`, most significant first. -/
def natToken (n : Nat) : List Nat := natTokenAux (n + 1) n

/-- Modelled from the spec: the repository has no PFM writer, so the
re-serializer of the round-trip property is taken from the specification's
own words — signature line, `<width> <height>` line, endianness line, then
the samples with row order reversed back (the container stores the bottom
row first), each sample as its four bytes. -/
def serializePFM (w h : Nat) (little : Bool) (samples : List F32) : List Nat :=
  pfSig ++ [10] ++ natToken w ++ [32] ++ natToken h ++ [10] ++
    (if little then tokNeg10 else tok10) ++ [10] ++
    (((List.range h).reverse.map fun y => (samples.drop (y * w * 3)).take (w * 3)).flatten).flatten

/-- Encoder stub that reports success immediately without writing. -/
def stubDone : Encoder := fun _ _ => ⟨[], .success⟩

/-- Encoder stub: writes up to two bytes and asks for more space on the
first call, then reports an error on the second. -/
def stubErrAfterOne : Encoder := fun i a =>
  if i = 0 then ⟨List.replicate (min 2 a) 7, .needMoreOutput⟩ else ⟨[], .error⟩

/-- Encoder stub: needs more space on calls 0, 1, 2, then succeeds on call
3, writing up to two bytes on every call. -/
def stubNeedThree : Encoder := fun i a =>
  if i < 3 then ⟨List.replicate (min 2 a) 7, .needMoreOutput⟩
  else ⟨List.replicate (min 2 a) 9, .success⟩

/-- The bytes of a file `PF\n1 1\n-1.0\n` followed by payload `1..12`. -/
def pfm1x1 : List Nat :=
  [80, 70, 10, 49, 32, 49, 10, 45, 49, 46, 48, 10, 1, 2, 3, 4, 5, 6, 7, 8, 9, 10, 11, 12]

/-- The bytes of a file `PF\n1 1\n-1.0\n` followed by only 11 payload bytes. -/
def pfm1x1Short : List Nat :=
  [80, 70, 10, 49, 32, 49, 10, 45, 49, 46, 48, 10] ++ List.replicate 11 0

/-- The bytes of a file `PF\n0 1\n-1.0\n` with empty payload. -/
def pfm0x1 : List Nat := [80, 70, 10, 48, 32, 49, 10, 45, 49, 46, 48, 10]

/-- The bytes of a file `PF\n65536 65536\n-1.0\n` with empty payload. -/
def pfmOverflow : List Nat :=
  [80, 70, 10, 54, 53, 53, 51, 54, 32, 54, 53, 53, 51, 54, 10, 45, 49, 46, 48, 10]

/-- The bytes of a file `PF\nab cd\n-1.0\n`: a non-numeric width token. -/
def pfmBadWidth : List Nat := [80, 70, 10, 97, 98, 32, 99, 100, 10, 45, 49, 46, 48, 10]

/-- The bytes of a file `PF\n-1 0\n-1.0\n`: width token `-1` (which
`std::stoi` accepts and the `uint32_t` store wraps to `4294967295`), height
`0`, empty payload. -/
def pfmNegWidth : List Nat := [80, 70, 10, 45, 49, 32, 48, 10, 45, 49, 46, 48, 10]

/-! ### Basic lemmas about the vector primitives -/

theorem vecResize_length (v : List Nat) (n : Nat) : (vecResize v n).length = n := by
  unfold vecResize
  split <;> simp <;> omega

theorem vecResizeF_length (v : List F32) (n : Nat) : (vecResizeF v n).length = n := by
  unfold vecResizeF
  split <;> simp <;> omega

theorem vecResize_eq_take (v : List Nat) (n : Nat) (h : n ≤ v.length) :
    vecResize v n = v.take n := by
  unfold vecResize
  rw [if_pos h]

theorem vecResize_take (v : List Nat) (n k : Nat) (hn : v.length ≤ n) (hk : k ≤ v.length) :
    (vecResize v n).take k = v.take k := by
  unfold vecResize
  split
  · have hnv : n = v.length := le_antisymm (by assumption) hn
    rw [hnv, List.take_length]
  · rw [List.take_append_of_le_length hk]

theorem writeAt_length_of_le (buf bytes : List Nat) (pos : Nat)
    (h : pos + bytes.length ≤ buf.length) : (writeAt buf pos bytes).length = buf.length := by
  simp [writeAt]
  omega

theorem writeAt_length_mono (buf bytes : List Nat) (pos : Nat) :
    buf.length ≤ (writeAt buf pos bytes).length := by
  simp [writeAt]
  omega

theorem writeAt_take (buf bytes : List Nat) (pos : Nat)
    (h : pos + bytes.length ≤ buf.length) :
    (writeAt buf pos bytes).take (pos + bytes.length) = buf.take pos ++ bytes := by
  unfold writeAt
  have hlen : (buf.take pos ++ bytes).length = pos + bytes.length := by
    simp
    omega
  rw [List.take_append_of_le_length (le_of_eq hlen.symm), ← hlen, List.take_length]

theorem growBuffer_length (st : DrainState) :
    (growBuffer st).compressed.length = st.compressed.length * 2 := by
  simp [growBuffer, vecResize_length]

theorem growBuffer_next (st : DrainState) : (growBuffer st).next_out = st.next_out := rfl

theorem growBuffer_take (st : DrainState) (k : Nat) (hk : k ≤ st.compressed.length) :
    (growBuffer st).compressed.take k = st.compressed.take k := by
  simp only [growBuffer]
  exact vecResize_take _ _ _ (by omega) hk

/-! ### The drain loop -/

theorem processOutput_status (enc : Encoder) (i : Nat) (st : DrainState) :
    (processOutput enc i st).1 = (enc i st.avail_out).status := rfl

theorem processOutput_state (enc : Encoder) (i : Nat) (st : DrainState) :
    (processOutput enc i st).2.1 =
      ⟨writeAt st.compressed st.next_out (enc i st.avail_out).bytes,
       st.next_out + (enc i st.avail_out).bytes.length,
       st.avail_out - (enc i st.avail_out).bytes.length⟩ := rfl

theorem processOutput_chunk (enc : Encoder) (i : Nat) (st : DrainState) :
    (processOutput enc i st).2.2 = (enc i st.avail_out).bytes := rfl

theorem drainLoop_mono (enc : Encoder) :
    ∀ (fuel i : Nat) (st : DrainState) (res : JxlEncoderStatus) (st' : DrainState)
      (log : List (List Nat)),
      drainLoop enc fuel i st = some (res, st', log) →
      st.compressed.length ≤ st'.compressed.length := by
  intro fuel
  induction fuel with
  | zero =>
    intro i st res st' log h
    simp [drainLoop] at h
  | succ fuel ih =>
    intro i st res st' log h
    unfold drainLoop at h
    by_cases hs : (processOutput enc i st).1 = JxlEncoderStatus.needMoreOutput
    · rw [if_pos hs] at h
      cases hrec : drainLoop enc fuel (i + 1) (growBuffer (processOutput enc i st).2.1) with
      | none => rw [hrec] at h; exact absurd h (by simp)
      | some v =>
        obtain ⟨res1, st1, log1⟩ := v
        rw [hrec] at h
        simp only [Option.some.injEq, Prod.mk.injEq] at h
        obtain ⟨-, hst, -⟩ := h
        have h1 : st.compressed.length ≤ (processOutput enc i st).2.1.compressed.length := by
          rw [processOutput_state]
          exact writeAt_length_mono _ _ _
        have h2 : (processOutput enc i st).2.1.compressed.length ≤
            (growBuffer (processOutput enc i st).2.1).compressed.length := by
          rw [growBuffer_length]
          omega
        have h3 := ih (i + 1) (growBuffer (processOutput enc i st).2.1) res1 st1 log1 hrec
        rw [hst] at h3
        omega
    · rw [if_neg hs] at h
      simp only [Option.some.injEq, Prod.mk.injEq] at h
      obtain ⟨-, hst, -⟩ := h
      rw [← hst, processOutput_state]
      exact writeAt_length_mono _ _ _

theorem drainLoop_script (enc : Encoder)
    (hfit : ∀ i a, (enc i a).bytes.length ≤ a)
    (res : JxlEncoderStatus) (hres : res ≠ .needMoreOutput) :
    ∀ (n i fuel : Nat) (st : DrainState),
      st.next_out + st.avail_out = st.compressed.length →
      (∀ j a, j < n → (enc (i + j) a).status = .needMoreOutput) →
      (∀ a, (enc (i + n) a).status = res) →
      n < fuel →
      ∃ st' log,
        drainLoop enc fuel i st = some (res, st', log) ∧
        log.length = n + 1 ∧
        st'.next_out = st.next_out + log.flatten.length ∧
        st'.next_out + st'.avail_out = st'.compressed.length ∧
        st'.compressed.take st'.next_out = st.compressed.take st.next_out ++ log.flatten := by
  intro n
  induction n with
  | zero =>
    intro i fuel st hinv hneed hterm hfuel
    obtain ⟨fuel, rfl⟩ : ∃ f, fuel = f + 1 := ⟨fuel - 1, by omega⟩
    have hst : (processOutput enc i st).1 = res := by
      rw [processOutput_status]
      simpa using hterm st.avail_out
    have hwrite : st.next_out + (enc i st.avail_out).bytes.length ≤ st.compressed.length := by
      have := hfit i st.avail_out
      omega
    refine ⟨(processOutput enc i st).2.1, [(processOutput enc i st).2.2], ?_, by simp, ?_, ?_, ?_⟩
    · unfold drainLoop
      rw [if_neg (by rw [hst]; exact hres), hst]
    · rw [processOutput_state, processOutput_chunk]
      simp
    · rw [processOutput_state]
      simp only
      rw [writeAt_length_of_le _ _ _ hwrite]
      omega
    · rw [processOutput_state, processOutput_chunk]
      simp only [List.flatten_cons, List.flatten_nil, List.append_nil]
      exact writeAt_take _ _ _ hwrite
  | succ n ih =>
    intro i fuel st hinv hneed hterm hfuel
    obtain ⟨fuel, rfl⟩ : ∃ f, fuel = f + 1 := ⟨fuel - 1, by omega⟩
    have hst : (processOutput enc i st).1 = JxlEncoderStatus.needMoreOutput := by
      rw [processOutput_status]
      simpa using hneed 0 st.avail_out (by omega)
    have hwrite : st.next_out + (enc i st.avail_out).bytes.length ≤ st.compressed.length := by
      have := hfit i st.avail_out
      omega
    have hlen1 : (processOutput enc i st).2.1.compressed.length = st.compressed.length := by
      rw [processOutput_state]
      exact writeAt_length_of_le _ _ _ hwrite
    have hnext1 : (processOutput enc i st).2.1.next_out =
        st.next_out + (enc i st.avail_out).bytes.length := by
      rw [processOutput_state]
    have hinv2 : (growBuffer (processOutput enc i st).2.1).next_out +
        (growBuffer (processOutput enc i st).2.1).avail_out =
        (growBuffer (processOutput enc i st).2.1).compressed.length := by
      rw [growBuffer_next, growBuffer_length]
      simp only [growBuffer, vecResize_length]
      omega
    obtain ⟨st', log, hrun, hlog, hnext, hinv', htake⟩ :=
      ih (i + 1) fuel (growBuffer (processOutput enc i st).2.1) hinv2
        (fun j a hj => by
          have := hneed (j + 1) a (by omega)
          rwa [show i + (j + 1) = i + 1 + j by omega] at this)
        (fun a => by
          have := hterm a
          rwa [show i + (n + 1) = i + 1 + n by omega] at this)
        (by omega)
    refine ⟨st', (processOutput enc i st).2.2 :: log, ?_, by simpa using hlog, ?_, hinv', ?_⟩
    · unfold drainLoop
      rw [if_pos hst, hrun]
    · rw [hnext, growBuffer_next, hnext1, processOutput_chunk]
      simp only [List.flatten_cons, List.length_append]
      omega
    · have hgrow_take : (growBuffer (processOutput enc i st).2.1).compressed.take
          (growBuffer (processOutput enc i st).2.1).next_out =
          (processOutput enc i st).2.1.compressed.take (processOutput enc i st).2.1.next_out := by
        rw [growBuffer_next]
        exact growBuffer_take _ _ (by rw [hlen1, hnext1]; omega)
      rw [htake, hgrow_take, processOutput_state, processOutput_chunk]
      simp only [List.flatten_cons]
      rw [writeAt_take _ _ _ hwrite]
      simp [List.append_assoc]

/-! ### Length preservation of the pixel copy loop -/

theorem copySample_snd_length (w y x c : Nat) (data : List Nat) (st : Nat × List F32) :
    (copySample w y x c data st).2.length = st.2.length := by
  simp [copySample]

theorem copyRow3_snd_length (w y x : Nat) (data : List Nat) (st : Nat × List F32) :
    ((List.range 3).foldl (fun st c => copySample w y x c data st) st).2.length =
      st.2.length := by
  show (copySample w y x 2 data (copySample w y x 1 data (copySample w y x 0 data st))).2.length
      = st.2.length
  rw [copySample_snd_length, copySample_snd_length, copySample_snd_length]

theorem copyRowAux_snd_length (w y : Nat) (data : List Nat) :
    ∀ (xs : List Nat) (st : Nat × List F32),
      (copyRowAux w y data xs st).2.length = st.2.length := by
  intro xs
  induction xs with
  | nil => intro st; rfl
  | cons x xs ih =>
    intro st
    have h1 : copyRowAux w y data (x :: xs) st =
        copyRowAux w y data xs
          ((List.range 3).foldl (fun st c => copySample w y x c data st) st) := rfl
    rw [h1, ih, copyRow3_snd_length]

theorem copyRows_snd_length (w : Nat) (data : List Nat) :
    ∀ (h : Nat) (st : Nat × List F32), (copyRows w data h st).2.length = st.2.length := by
  intro h
  induction h with
  | zero => intro st; rfl
  | succ h ih =>
    intro st
    show (copyRows w data h (copyRowX w h data st)).2.length = st.2.length
    rw [ih]
    exact copyRowAux_snd_length w h data (List.range w) st

/-! ### Claims about the drain controller -/

/-- C1: for the drain loop run against a synthetic encoder stub that reports
`NeedMoreSpace` on its first three calls and `Done` on the fourth, writing
bytes that fit in the offered region each time, the returned buffer equals
the concatenation, in order, of the four chunks the stub wrote — with no
gaps, duplication, or truncation — for every positive starting capacity. -/
theorem drain_three_needmore_concat (c : Nat) (hc : 0 < c) (enc : Encoder)
    (fuel : Nat) (hfuel : 4 ≤ fuel) (cp : List Nat)
    (hneed : ∀ j a, j < 3 → (enc j a).status = .needMoreOutput)
    (hdone : ∀ a, (enc 3 a).status = .success)
    (hfit : ∀ i a, (enc i a).bytes.length ≤ a) :
    ∃ log, log.length = 4 ∧ encodeDrain c enc fuel cp = some (true, log.flatten, log) := by
  obtain ⟨st', log, hrun, hlog, hnext, hinv, htake⟩ :=
    drainLoop_script enc hfit .success (by simp) 3 0 fuel
      ⟨vecResize cp c, 0, (vecResize cp c).length - 0⟩
      (by simp) (fun j a hj => by simpa using hneed j a hj)
      (fun a => by simpa using hdone a) (by omega)
  refine ⟨log, hlog, ?_⟩
  simp only [encodeDrain]
  rw [hrun]
  have hfinal : vecResize st'.compressed st'.next_out = log.flatten := by
    rw [vecResize_eq_take _ _ (by omega), htake]
    simp
  show some (decide (JxlEncoderStatus.success = JxlEncoderStatus.success),
      vecResize st'.compressed st'.next_out, log) = some (true, log.flatten, log)
  rw [hfinal]
  rfl

theorem drain_three_needmore_concat_witness :
    (0 < 1 ∧ 4 ≤ 4) ∧
    ∃ log, log.length = 4 ∧ encodeDrain 1 stubNeedThree 4 [] = some (true, log.flatten, log) :=
  ⟨⟨by decide, by decide⟩,
   drain_three_needmore_concat 1 (by decide) stubNeedThree 4 (by decide) []
     (fun j a hj => by simp [stubNeedThree, hj])
     (fun a => by simp [stubNeedThree])
     (fun i a => by simp only [stubNeedThree]; split <;> simp)⟩

/-- C2: across any completed run of the drain loop the buffer capacity never
decreases; the growth step performed whenever the encoder reports
`NeedMoreSpace` multiplies the capacity by (at least) two; and the growth
step keeps the already-written prefix `[0, writtenLength)` bit-identical. -/
theorem drain_growth_doubling (enc : Encoder) (fuel i : Nat) (st : DrainState)
    (res : JxlEncoderStatus) (st' : DrainState) (log : List (List Nat))
    (hrun : drainLoop enc fuel i st = some (res, st', log))
    (hwl : st.next_out ≤ st.compressed.length) :
    st.compressed.length ≤ st'.compressed.length ∧
    (growBuffer st).compressed.length = st.compressed.length * 2 ∧
    (growBuffer st).compressed.take st.next_out = st.compressed.take st.next_out :=
  ⟨drainLoop_mono enc fuel i st res st' log hrun, growBuffer_length st,
   growBuffer_take st st.next_out hwl⟩

theorem drain_growth_doubling_witness :
    (drainLoop stubDone 1 0 ⟨[3, 4], 1, 1⟩ = some (.success, ⟨[3, 4], 1, 1⟩, [[]]) ∧
      (1 : Nat) ≤ 2) ∧
    ((⟨[3, 4], 1, 1⟩ : DrainState).compressed.length ≤
        (⟨[3, 4], 1, 1⟩ : DrainState).compressed.length ∧
      (growBuffer ⟨[3, 4], 1, 1⟩).compressed.length =
        (⟨[3, 4], 1, 1⟩ : DrainState).compressed.length * 2 ∧
      (growBuffer ⟨[3, 4], 1, 1⟩).compressed.take 1 =
        (⟨[3, 4], 1, 1⟩ : DrainState).compressed.take 1) :=
  ⟨⟨by decide, by decide⟩,
   drain_growth_doubling stubDone 1 0 ⟨[3, 4], 1, 1⟩ .success ⟨[3, 4], 1, 1⟩ [[]]
     (by decide) (by decide)⟩

/-- C3 counterexample: with a stub that writes two bytes with
`NeedMoreSpace` and then reports an error, the drain returns failure but
the caller-visible buffer still holds the two partially produced bytes —
refuting the claim that the partial buffer is discarded on error. -/
theorem drain_error_partial_remains :
    encodeDrain 64 stubErrAfterOne 10 [] = some (false, [7, 7], [[7, 7], []]) ∧
    ([7, 7] : List Nat) ≠ [] := ⟨by decide, by decide⟩

/-- C3 (amended): if the encoder reports a status other than success or
`NeedMoreSpace`, the drain reports failure (`false`, the `EncodeError`
path); the caller-visible buffer is not cleared — it is truncated to
`writtenLength` and retains exactly the bytes produced so far (the
concatenation of the chunks written before the error). -/
theorem drain_error_reports_failure (c : Nat) (enc : Encoder) (fuel n : Nat) (cp : List Nat)
    (hneed : ∀ j a, j < n → (enc j a).status = .needMoreOutput)
    (herr : ∀ a, (enc n a).status = .error)
    (hfit : ∀ i a, (enc i a).bytes.length ≤ a)
    (hfuel : n < fuel) :
    ∃ log, encodeDrain c enc fuel cp = some (false, log.flatten, log) := by
  obtain ⟨st', log, hrun, hlog, hnext, hinv, htake⟩ :=
    drainLoop_script enc hfit .error (by simp) n 0 fuel
      ⟨vecResize cp c, 0, (vecResize cp c).length - 0⟩
      (by simp) (fun j a hj => by simpa using hneed j a hj)
      (fun a => by simpa using herr a) hfuel
  refine ⟨log, ?_⟩
  simp only [encodeDrain]
  rw [hrun]
  have hfinal : vecResize st'.compressed st'.next_out = log.flatten := by
    rw [vecResize_eq_take _ _ (by omega), htake]
    simp
  show some (decide (JxlEncoderStatus.error = JxlEncoderStatus.success),
      vecResize st'.compressed st'.next_out, log) = some (false, log.flatten, log)
  rw [hfinal]
  rfl

theorem drain_error_reports_failure_witness :
    (1 < 10) ∧
    ∃ log, encodeDrain 64 stubErrAfterOne 10 [] = some (false, log.flatten, log) :=
  ⟨by decide,
   drain_error_reports_failure 64 stubErrAfterOne 10 1 []
     (fun j a hj => by
       have hj0 : j = 0 := by omega
       subst hj0
       simp [stubErrAfterOne])
     (fun a => by simp [stubErrAfterOne])
     (fun i a => by simp only [stubErrAfterOne]; split <;> simp)
     (by decide)⟩

/-- C4 evidence (code bug): on the success exit path the encode stage
destroys the encoder but never calls `JxlThreadParallelRunnerDestroy`, so
the thread-parallel-runner handle is leaked (`runnerDestroyed = false`),
contradicting the guaranteed-release-on-every-exit-path contract; all four
failure paths do destroy both handles. -/
theorem encode_success_path_leaks_runner :
    EncodeJxlOneshot true true true stubDone 2 [] =
      some ⟨true, false, true, []⟩ := by decide

/-! ### Claims C9/C10 about the size check and `std::stoi` -/

/-- C9: the payload-size validation computes `*ysize * *xsize * 3 * 4` in
`uint32_t`, i.e. modulo `2^32`: for the 65536×65536 header (true payload
size `3·2^34`) the reader accepts an empty payload, and the sample buffer
is resized to `(ysize·xsize·3) mod 2^32 = 0` samples instead of the
mathematical product. -/
theorem readpfm_size_check_mod32 :
    ∃ (data : List Nat) (hdr : PFMHeader) (px : List F32),
      parsePFMHeader data = .ok hdr ∧
      U32 < hdr.ysize * hdr.xsize * 3 * 4 ∧
      data.length - hdr.off ≠ hdr.ysize * hdr.xsize * 3 * 4 ∧
      ReadPFM true data [] = (.ok hdr.xsize hdr.ysize, px) ∧
      px.length = hdr.ysize * hdr.xsize * 3 % U32 ∧
      px.length ≠ hdr.ysize * hdr.xsize * 3 := by
  have hparse : parsePFMHeader pfmOverflow = .ok ⟨65536, 65536, true, 20⟩ := by decide
  have hread : ReadPFM true pfmOverflow [] = (.ok 65536 65536,
      (copyRows 65536 pfmOverflow 65536
        (20, vecResizeF [] (65536 * 65536 % U32 * 3 % U32))).2) := by
    simp only [ReadPFM, hparse]
    rw [if_neg (by decide), if_neg (by decide)]
  refine ⟨pfmOverflow, ⟨65536, 65536, true, 20⟩, _, hparse, by decide, by decide,
    hread, ?hlen, ?hne⟩
  case hlen =>
    show ((copyRows 65536 pfmOverflow 65536
        (20, vecResizeF [] (65536 * 65536 % U32 * 3 % U32))).2).length =
      65536 * 65536 * 3 % U32
    rw [copyRows_snd_length]
    show (vecResizeF [] (65536 * 65536 % U32 * 3 % U32)).length = 65536 * 65536 * 3 % U32
    rw [vecResizeF_length]
    decide
  case hne =>
    show ((copyRows 65536 pfmOverflow 65536
        (20, vecResizeF [] (65536 * 65536 % U32 * 3 % U32))).2).length ≠
      65536 * 65536 * 3
    rw [copyRows_snd_length]
    show (vecResizeF [] (65536 * 65536 % U32 * 3 % U32)).length ≠ 65536 * 65536 * 3
    rw [vecResizeF_length]
    decide

/-- C10: the reader is not total at the dimension tokens: for an input with
a valid `PF` signature line but a non-numeric width token, `std::stoi`
throws an exception the reader does not catch (`.exn`), so the call neither
returns success nor any of the specified failure results, and it is
independent of host endianness and of the initial pixel buffer. -/
theorem readpfm_stoi_uncaught :
    ∃ data : List Nat,
      (getline data 10).1 = pfSig ∧
      ∀ (host : Bool) (px0 : List F32), ReadPFM host data px0 = (.exn, px0) := by
  refine ⟨pfmBadWidth, by decide, ?_⟩
  intro host px0
  have h : parsePFMHeader pfmBadWidth = .exn := by decide
  simp only [ReadPFM, h]

/-! ### Collapsing chained uint32 reductions -/

theorem mod_mul3_mul4 (a : Nat) : a % U32 * 3 % U32 * 4 % U32 = a * 3 * 4 % U32 := by
  rw [Nat.mod_mul_mod, Nat.mul_assoc, Nat.mod_mul_mod, ← Nat.mul_assoc]

theorem mod_mul3 (a : Nat) : a % U32 * 3 % U32 = a * 3 % U32 := by
  rw [Nat.mod_mul_mod]

/-- C6: if the header parses (signature, both dimension tokens, endianness
token all valid) but the file length is off by one byte — in either
direction — from `offset + ysize*xsize*3*4` (the mathematical product),
the reader fails at the size check with a `FormatError`-style `false`
return and the caller's pixel buffer is returned untouched.  The size check
precedes the endianness-vs-host check, so this holds for both hosts. -/
theorem readpfm_off_by_one_rejected (host : Bool) (data : List Nat) (px0 : List F32)
    (hdr : PFMHeader) (hparse : parsePFMHeader data = .ok hdr)
    (hlen : data.length = hdr.off + hdr.ysize * hdr.xsize * 3 * 4 + 1 ∨
            data.length + 1 = hdr.off + hdr.ysize * hdr.xsize * 3 * 4) :
    ReadPFM host data px0 = (.err, px0) := by
  have h32 : U32 = 4294967296 := by norm_num [U32]
  have hck : data.length ≠ hdr.ysize * hdr.xsize % U32 * 3 % U32 * 4 % U32 + hdr.off := by
    rw [mod_mul3_mul4]
    have hmod := Nat.mod_add_div (hdr.ysize * hdr.xsize * 3 * 4) U32
    rw [h32] at hmod ⊢
    omega
  simp only [ReadPFM, hparse]
  rw [if_pos hck]

theorem readpfm_off_by_one_rejected_witness :
    parsePFMHeader pfm1x1Short = .ok ⟨1, 1, true, 12⟩ ∧
    ReadPFM true pfm1x1Short [[9, 9, 9, 9]] = (.err, [[9, 9, 9, 9]]) :=
  ⟨by decide,
   readpfm_off_by_one_rejected true pfm1x1Short [[9, 9, 9, 9]] ⟨1, 1, true, 12⟩ (by decide)
     (Or.inr (by decide))⟩

/-- C7: a container whose declared width or height is zero, with a valid
header, matching host endianness and an empty payload (file length equal to
the header offset), is accepted: the size check passes trivially, the
returned sample sequence is empty, and the declared dimensions are
propagated unchanged in the result. -/
theorem readpfm_zero_dims (host : Bool) (data : List Nat) (px0 : List F32)
    (hdr : PFMHeader) (hparse : parsePFMHeader data = .ok hdr)
    (hzero : hdr.xsize = 0 ∨ hdr.ysize = 0)
    (hlen : data.length = hdr.off)
    (hhost : host = hdr.littleEndian) :
    ReadPFM host data px0 = (.ok hdr.xsize hdr.ysize, []) := by
  have hprod : hdr.ysize * hdr.xsize = 0 := by
    cases hzero with
    | inl h => rw [h]; simp
    | inr h => rw [h]; simp
  have hck : ¬ (data.length ≠ hdr.ysize * hdr.xsize % U32 * 3 % U32 * 4 % U32 + hdr.off) := by
    rw [hprod]
    simp [hlen]
  have hhost' : ¬ (host ≠ hdr.littleEndian) := by simp [hhost]
  have hpx : vecResizeF px0 (hdr.ysize * hdr.xsize % U32 * 3 % U32) = [] := by
    rw [hprod]
    simp [vecResizeF]
  have hcp : (copyRows hdr.xsize data hdr.ysize (hdr.off, ([] : List F32))).2 = [] :=
    List.eq_nil_of_length_eq_zero (by rw [copyRows_snd_length]; rfl)
  simp only [ReadPFM, hparse]
  rw [if_neg hck, if_neg hhost', hpx, hcp]

theorem readpfm_zero_dims_witness :
    parsePFMHeader pfm0x1 = .ok ⟨0, 1, true, 12⟩ ∧
    ReadPFM true pfm0x1 [[7]] = (.ok 0 1, []) :=
  ⟨by decide,
   readpfm_zero_dims true pfm0x1 [[7]] ⟨0, 1, true, 12⟩ (by decide) (Or.inl rfl)
     (by decide) rfl⟩

/-! ### Characterizing the pixel copy loop -/

theorem getD_set_self (l : List F32) (i : Nat) (v : F32) (h : i < l.length) :
    (l.set i v).getD i f32zero = v := by
  rw [List.getD_eq_getElem _ _ (by simpa using h)]
  exact List.getElem_set_self _

theorem getD_set_ne (l : List F32) (i j : Nat) (v : F32) (h : i ≠ j) :
    (l.set i v).getD j f32zero = l.getD j f32zero := by
  by_cases hj : j < l.length
  · rw [List.getD_eq_getElem _ _ (by simpa using hj), List.getD_eq_getElem _ _ hj]
    exact List.getElem_set_ne h _
  · rw [List.getD_eq_default _ _ (by simpa using hj), List.getD_eq_default _ _ (by omega)]

theorem copySample_eq (w y x c : Nat) (data : List Nat) (st : Nat × List F32)
    (hb : (y * w + x) * 3 + c < U32) :
    copySample w y x c data st =
      (st.1 + 4, st.2.set ((y * w + x) * 3 + c) (readF32 data st.1)) := by
  have hidx : ((y * w % U32 + x) % U32 * 3 % U32 + c) % U32 = (y * w + x) * 3 + c := by
    have h1 : (y * w % U32 + x) % U32 = (y * w + x) % U32 := Nat.mod_add_mod _ _ _
    have h2 : (y * w + x) % U32 * 3 % U32 = (y * w + x) * 3 % U32 := Nat.mod_mul_mod
    have h3 : ((y * w + x) * 3 % U32 + c) % U32 = ((y * w + x) * 3 + c) % U32 :=
      Nat.mod_add_mod _ _ _
    rw [h1, h2, h3, Nat.mod_eq_of_lt hb]
  unfold copySample
  rw [hidx]

theorem copyRow3_eq (w y x : Nat) (data : List Nat) (off : Nat) (px : List F32)
    (hb : (y * w + x) * 3 + 2 < U32) :
    (List.range 3).foldl (fun st c => copySample w y x c data st) (off, px) =
      (off + 12,
        ((px.set ((y * w + x) * 3) (readF32 data off)).set
            ((y * w + x) * 3 + 1) (readF32 data (off + 4))).set
          ((y * w + x) * 3 + 2) (readF32 data (off + 8))) := by
  show copySample w y x 2 data (copySample w y x 1 data (copySample w y x 0 data (off, px))) = _
  rw [copySample_eq w y x 0 data _ (by omega), copySample_eq w y x 1 data _ (by omega),
      copySample_eq w y x 2 data _ (by omega)]
  norm_num

theorem getD_set3 (px1 : List F32) (b t : Nat) (v0 v1 v2 : F32) (hlen : b + 2 < px1.length) :
    (((px1.set b v0).set (b + 1) v1).set (b + 2) v2).getD t f32zero =
      if t = b then v0 else if t = b + 1 then v1 else if t = b + 2 then v2
        else px1.getD t f32zero := by
  by_cases h2 : t = b + 2
  · subst h2
    rw [getD_set_self _ _ _ (by simp only [List.length_set]; omega)]
    rw [if_neg (by omega), if_neg (by omega), if_pos rfl]
  · rw [getD_set_ne _ _ _ _ (by omega)]
    by_cases h1 : t = b + 1
    · subst h1
      rw [getD_set_self _ _ _ (by simp only [List.length_set]; omega)]
      rw [if_neg (by omega), if_pos rfl]
    · rw [getD_set_ne _ _ _ _ (by omega)]
      by_cases h0 : t = b
      · subst h0
        rw [getD_set_self _ _ _ (by omega), if_pos rfl]
      · rw [getD_set_ne _ _ _ _ (by omega), if_neg h0, if_neg h1, if_neg h2]

theorem copyRowAux_range (w y : Nat) (data : List Nat) :
    ∀ (wp : Nat), wp ≤ w →
    ∀ (off : Nat) (px : List F32),
      (y * w + w) * 3 ≤ U32 →
      (y * w + w) * 3 ≤ px.length →
      ((copyRowAux w y data (List.range wp) (off, px)).1 = off + 12 * wp ∧
       (∀ j, j < 3 * wp →
         (copyRowAux w y data (List.range wp) (off, px)).2.getD (y * w * 3 + j) f32zero =
           readF32 data (off + 4 * j)) ∧
       (∀ i, i < y * w * 3 ∨ y * w * 3 + 3 * wp ≤ i →
         (copyRowAux w y data (List.range wp) (off, px)).2.getD i f32zero =
           px.getD i f32zero)) := by
  intro wp
  induction wp with
  | zero =>
    intro _ off px _ _
    refine ⟨?_, fun j hj => absurd hj (by omega), fun i _ => rfl⟩
    show off = off + 12 * 0
    omega
  | succ wp ih =>
    intro hwp off px hU hL
    obtain ⟨ih1, ih2, ih3⟩ := ih (by omega) off px hU hL
    have hlen1 : (copyRowAux w y data (List.range wp) (off, px)).2.length = px.length :=
      copyRowAux_snd_length w y data (List.range wp) (off, px)
    have hA : copyRowAux w y data (List.range wp) (off, px) =
        (off + 12 * wp, (copyRowAux w y data (List.range wp) (off, px)).2) := by
      rw [← ih1]
    have hsplit : copyRowAux w y data (List.range (wp + 1)) (off, px) =
        copyRowAux w y data [wp] (copyRowAux w y data (List.range wp) (off, px)) := by
      simp only [copyRowAux, List.range_succ, List.foldl_append]
    have hstep : copyRowAux w y data (List.range (wp + 1)) (off, px) =
        (off + 12 * wp + 12,
          (((copyRowAux w y data (List.range wp) (off, px)).2.set
                ((y * w + wp) * 3) (readF32 data (off + 12 * wp))).set
              ((y * w + wp) * 3 + 1) (readF32 data (off + 12 * wp + 4))).set
            ((y * w + wp) * 3 + 2) (readF32 data (off + 12 * wp + 8))) := by
      rw [hsplit, hA]
      show (List.range 3).foldl (fun st c => copySample w y wp c data st)
          (off + 12 * wp, (copyRowAux w y data (List.range wp) (off, px)).2) = _
      rw [copyRow3_eq w y wp data _ _ (by omega)]
    have hstep1 : (copyRowAux w y data (List.range (wp + 1)) (off, px)).1 =
        off + 12 * wp + 12 := by
      rw [hstep]
    have hstep2 : (copyRowAux w y data (List.range (wp + 1)) (off, px)).2 =
        (((copyRowAux w y data (List.range wp) (off, px)).2.set
              ((y * w + wp) * 3) (readF32 data (off + 12 * wp))).set
            ((y * w + wp) * 3 + 1) (readF32 data (off + 12 * wp + 4))).set
          ((y * w + wp) * 3 + 2) (readF32 data (off + 12 * wp + 8)) := by
      rw [hstep]
    refine ⟨by rw [hstep1]; omega, ?_, ?_⟩
    · intro j hj
      rw [hstep2, getD_set3 _ _ _ _ _ _ (by rw [hlen1]; omega)]
      by_cases hj0 : j < 3 * wp
      · rw [if_neg (by omega), if_neg (by omega), if_neg (by omega)]
        exact ih2 j hj0
      · rcases (by omega : j = 3 * wp ∨ j = 3 * wp + 1 ∨ j = 3 * wp + 2) with h | h | h
        · subst h
          rw [if_pos (by omega)]
          rw [show off + 4 * (3 * wp) = off + 12 * wp by ring]
        · subst h
          rw [if_neg (by omega), if_pos (by omega)]
          rw [show off + 4 * (3 * wp + 1) = off + 12 * wp + 4 by ring]
        · subst h
          rw [if_neg (by omega), if_neg (by omega), if_pos (by omega)]
          rw [show off + 4 * (3 * wp + 2) = off + 12 * wp + 8 by ring]
    · intro i hi
      rw [hstep2, getD_set3 _ _ _ _ _ _ (by rw [hlen1]; omega)]
      rw [if_neg (by omega), if_neg (by omega), if_neg (by omega)]
      exact ih3 i (by omega)

theorem copyRows_spec (w : Nat) (data : List Nat) :
    ∀ (h : Nat) (off : Nat) (px : List F32),
      w * h * 3 ≤ U32 →
      w * h * 3 ≤ px.length →
      ((∀ y x c, y < h → x < w → c < 3 →
         (copyRows w data h (off, px)).2.getD ((y * w + x) * 3 + c) f32zero =
           readF32 data (off + 12 * w * (h - 1 - y) + 4 * (x * 3 + c))) ∧
       (∀ i, w * h * 3 ≤ i →
         (copyRows w data h (off, px)).2.getD i f32zero = px.getD i f32zero)) := by
  intro h
  induction h with
  | zero =>
    intro off px _ _
    exact ⟨fun y x c hy _ _ => absurd hy (by omega), fun i _ => rfl⟩
  | succ h ih =>
    intro off px hU hL
    have e1 : w * (h + 1) * 3 = w * h * 3 + 3 * w := by ring
    have hcomm : w * h = h * w := Nat.mul_comm w h
    obtain ⟨r1, r2, r3⟩ := copyRowAux_range w h data w le_rfl off px (by omega) (by omega)
    have hlenA : (copyRowAux w h data (List.range w) (off, px)).2.length = px.length :=
      copyRowAux_snd_length w h data (List.range w) (off, px)
    have hA : copyRowAux w h data (List.range w) (off, px) =
        (off + 12 * w, (copyRowAux w h data (List.range w) (off, px)).2) := by
      rw [← r1]
    have hstep : copyRows w data (h + 1) (off, px) =
        copyRows w data h
          (off + 12 * w, (copyRowAux w h data (List.range w) (off, px)).2) := by
      show copyRows w data h (copyRowX w h data (off, px)) = _
      simp only [copyRowX]
      rw [hA]
    obtain ⟨ihv, ihu⟩ := ih (off + 12 * w)
      (copyRowAux w h data (List.range w) (off, px)).2 (by omega) (by rw [hlenA]; omega)
    refine ⟨?_, ?_⟩
    · intro y x c hy hx hc
      rw [hstep]
      by_cases hyh : y < h
      · rw [ihv y x c hyh hx hc]
        congr 1
        rw [show h + 1 - 1 - y = (h - 1 - y) + 1 from by omega]
        ring
      · have hyeq : y = h := by omega
        subst hyeq
        rw [ihu ((y * w + x) * 3 + c) (by omega)]
        rw [show (y * w + x) * 3 + c = y * w * 3 + (x * 3 + c) from by ring]
        rw [r2 (x * 3 + c) (by omega)]
        rw [show y + 1 - 1 - y = 0 from by omega]
        norm_num
    · intro i hi
      rw [hstep, ihu i (by omega)]
      exact r3 i (Or.inr (by omega))

/-- C5: for every container accepted by the reader whose payload is exactly
`ysize*xsize*3` floats (file length = header offset + mathematical
`ysize*xsize*3*4`), the returned samples satisfy
`samples[(y*w + x)*3 + c] = payload float number ((h-1-y)*w + x)*3 + c`:
row order reversed, column and channel order preserved, each payload float
occupying exactly 4 bytes at offset `hdr.off + 4*k`. -/
theorem readpfm_row_reversal (host : Bool) (data : List Nat) (px0 px' : List F32)
    (hdr : PFMHeader)
    (hparse : parsePFMHeader data = .ok hdr)
    (hpl : data.length = hdr.off + hdr.ysize * hdr.xsize * 3 * 4)
    (hrun : ReadPFM host data px0 = (.ok hdr.xsize hdr.ysize, px'))
    (y x c : Nat) (hy : y < hdr.ysize) (hx : x < hdr.xsize) (hc : c < 3) :
    px'.getD ((y * hdr.xsize + x) * 3 + c) f32zero =
      readF32 data (hdr.off + 4 * (((hdr.ysize - 1 - y) * hdr.xsize + x) * 3 + c)) := by
  simp only [ReadPFM, hparse] at hrun
  by_cases h1 : data.length ≠ hdr.ysize * hdr.xsize % U32 * 3 % U32 * 4 % U32 + hdr.off
  · rw [if_pos h1] at hrun
    exact absurd hrun (by simp)
  rw [if_neg h1] at hrun
  by_cases h2 : host ≠ hdr.littleEndian
  · rw [if_pos h2] at hrun
    exact absurd hrun (by simp)
  rw [if_neg h2] at hrun
  have hpx : px' = (copyRows hdr.xsize data hdr.ysize
      (hdr.off, vecResizeF px0 (hdr.ysize * hdr.xsize % U32 * 3 % U32))).2 := by
    have h := hrun
    simp only [Prod.mk.injEq] at h
    exact h.2.symm
  have h1' : data.length = hdr.ysize * hdr.xsize * 3 * 4 % U32 + hdr.off := by
    have h := not_ne_iff.mp h1
    rwa [mod_mul3_mul4] at h
  have hlt : hdr.ysize * hdr.xsize * 3 * 4 < U32 := by
    have hmod : hdr.ysize * hdr.xsize * 3 * 4 % U32 < U32 :=
      Nat.mod_lt _ (by norm_num [U32])
    omega
  have hres : hdr.ysize * hdr.xsize % U32 * 3 % U32 = hdr.ysize * hdr.xsize * 3 := by
    rw [mod_mul3]
    exact Nat.mod_eq_of_lt (by omega)
  rw [hpx, hres]
  have hcomm : hdr.xsize * hdr.ysize = hdr.ysize * hdr.xsize := Nat.mul_comm _ _
  have hUb : hdr.xsize * hdr.ysize * 3 ≤ U32 := by omega
  have hLb : hdr.xsize * hdr.ysize * 3 ≤
      (vecResizeF px0 (hdr.ysize * hdr.xsize * 3)).length := by
    rw [vecResizeF_length]
    omega
  obtain ⟨hv, -⟩ := copyRows_spec hdr.xsize data hdr.ysize hdr.off
    (vecResizeF px0 (hdr.ysize * hdr.xsize * 3)) hUb hLb
  rw [hv y x c hy hx hc]
  congr 1
  generalize hdr.ysize - 1 - y = k
  ring

theorem readpfm_row_reversal_witness :
    (parsePFMHeader pfm1x1 = .ok ⟨1, 1, true, 12⟩ ∧
     pfm1x1.length = 12 + 1 * 1 * 3 * 4 ∧
     ReadPFM true pfm1x1 [] =
       (.ok 1 1, [[1, 2, 3, 4], [5, 6, 7, 8], [9, 10, 11, 12]])) ∧
    ([[1, 2, 3, 4], [5, 6, 7, 8], [9, 10, 11, 12]] : List F32).getD
        ((0 * 1 + 0) * 3 + 0) f32zero =
      readF32 pfm1x1 (12 + 4 * (((1 - 1 - 0) * 1 + 0) * 3 + 0)) :=
  ⟨⟨by decide, by decide, by decide⟩,
   readpfm_row_reversal true pfm1x1 []
     [[1, 2, 3, 4], [5, 6, 7, 8], [9, 10, 11, 12]] ⟨1, 1, true, 12⟩
     (by decide) (by decide) (by decide) 0 0 0 (by decide) (by decide) (by decide)⟩

/-! ### Tokens, `std::stoi` on digit strings, and `getline` on structured data -/

theorem digit_not_space (b : Nat) (h : isDigit b = true) : isSpace b = false := by
  simp only [isDigit, Bool.and_eq_true, decide_eq_true_eq] at h
  simp only [isSpace, Bool.or_eq_false_iff, Bool.and_eq_false_iff]
  constructor
  · simp only [beq_eq_false_iff_ne]
    omega
  · right
    simp only [decide_eq_false_iff_not]
    omega

theorem dropWhile_isSpace_digits (l : List Nat) (h : ∀ b ∈ l, isDigit b = true) :
    l.dropWhile isSpace = l := by
  cases l with
  | nil => rfl
  | cons b bs =>
    rw [List.dropWhile_cons, if_neg]
    rw [digit_not_space b (h b (by simp))]
    simp

theorem takeWhile_isDigit_all (l : List Nat) (h : ∀ b ∈ l, isDigit b = true) :
    l.takeWhile isDigit = l := by
  induction l with
  | nil => rfl
  | cons b bs ih =>
    rw [List.takeWhile_cons, if_pos (h b (by simp))]
    rw [ih (fun x hx => h x (by simp [hx]))]

theorem natTokenAux_spec :
    ∀ (fuel n : Nat), n < fuel →
      (∀ b ∈ natTokenAux fuel n, isDigit b = true) ∧
      digitsToNat (natTokenAux fuel n) = n ∧
      natTokenAux fuel n ≠ [] := by
  intro fuel
  induction fuel with
  | zero => intro n hn; omega
  | succ fuel ih =>
    intro n hn
    by_cases h10 : n < 10
    · refine ⟨?_, ?_, ?_⟩
      · intro b hb
        simp only [natTokenAux, if_pos h10, List.mem_singleton] at hb
        subst hb
        simp only [isDigit, Bool.and_eq_true, decide_eq_true_eq]
        omega
      · simp only [natTokenAux, if_pos h10, digitsToNat, List.foldl_cons, List.foldl_nil]
        omega
      · simp [natTokenAux, if_pos h10]
    · have hrec : n / 10 < fuel := by omega
      obtain ⟨ihd, ihv, ihne⟩ := ih (n / 10) hrec
      refine ⟨?_, ?_, ?_⟩
      · intro b hb
        simp only [natTokenAux, if_neg h10, List.mem_append, List.mem_singleton] at hb
        rcases hb with hb | hb
        · exact ihd b hb
        · subst hb
          simp only [isDigit, Bool.and_eq_true, decide_eq_true_eq]
          have := Nat.mod_lt n (show 0 < 10 by omega)
          omega
      · simp only [natTokenAux, if_neg h10, digitsToNat, List.foldl_append, List.foldl_cons,
          List.foldl_nil]
        have hfold : List.foldl (fun acc d => acc * 10 + (d - 48)) 0 (natTokenAux fuel (n / 10)) =
            n / 10 := ihv
        rw [hfold]
        have := Nat.mod_add_div n 10
        have hd : n % 10 + 48 - 48 = n % 10 := by omega
        rw [hd]
        omega
      · simp [natTokenAux, if_neg h10]

theorem natToken_digits (n : Nat) : ∀ b ∈ natToken n, isDigit b = true :=
  (natTokenAux_spec (n + 1) n (by omega)).1

theorem natToken_val (n : Nat) : digitsToNat (natToken n) = n :=
  (natTokenAux_spec (n + 1) n (by omega)).2.1

theorem natToken_ne_nil (n : Nat) : natToken n ≠ [] :=
  (natTokenAux_spec (n + 1) n (by omega)).2.2

theorem stoi_natToken (n : Nat) (h : n ≤ INT_MAX) : stoi (natToken n) = .ok (n : Int) := by
  cases htok : natToken n with
  | nil => exact absurd htok (natToken_ne_nil n)
  | cons b bs =>
    have hdig : ∀ x ∈ natToken n, isDigit x = true := natToken_digits n
    rw [htok] at hdig
    have hb : isDigit b = true := hdig b (by simp)
    have hb45 : b ≠ 45 := by
      simp only [isDigit, Bool.and_eq_true, decide_eq_true_eq] at hb
      omega
    have hb43 : b ≠ 43 := by
      simp only [isDigit, Bool.and_eq_true, decide_eq_true_eq] at hb
      omega
    have hval : digitsToNat (natToken n) = n := natToken_val n
    rw [htok] at hval
    simp [stoi, dropWhile_isSpace_digits _ hdig, if_neg hb45, if_neg hb43,
      takeWhile_isDigit_all _ hdig, hval, h]

theorem toUInt32_coe (n : Nat) (h : n < 2 ^ 32) : toUInt32 (n : Int) = n := by
  unfold toUInt32
  have hcast : (n : Int) % (2 ^ 32 : Int) = ((n % 2 ^ 32 : Nat) : Int) := by
    push_cast
    rfl
  rw [hcast, Int.toNat_ofNat, Nat.mod_eq_of_lt h]

theorem takeWhile_ne_append (d : Nat) :
    ∀ (a rest : List Nat), d ∉ a →
      (a ++ d :: rest).takeWhile (fun b => b != d) = a := by
  intro a
  induction a with
  | nil =>
    intro rest _
    simp [List.takeWhile_cons]
  | cons b bs ih =>
    intro rest hd
    have hb : b ≠ d := by
      intro hbd
      exact hd (by simp [hbd])
    rw [List.cons_append, List.takeWhile_cons, if_pos (by simp [hb])]
    rw [ih rest (fun hmem => hd (by simp [hmem]))]

theorem dropWhile_ne_append (d : Nat) :
    ∀ (a rest : List Nat), d ∉ a →
      (a ++ d :: rest).dropWhile (fun b => b != d) = d :: rest := by
  intro a
  induction a with
  | nil =>
    intro rest _
    simp [List.dropWhile_cons]
  | cons b bs ih =>
    intro rest hd
    have hb : b ≠ d := by
      intro hbd
      exact hd (by simp [hbd])
    rw [List.cons_append, List.dropWhile_cons, if_pos (by simp [hb])]
    exact ih rest (fun hmem => hd (by simp [hmem]))

theorem getline_split (a rest : List Nat) (d : Nat) (hd : d ∉ a) :
    getline (a ++ d :: rest) d = (a, rest) := by
  unfold getline
  rw [takeWhile_ne_append d a rest hd, dropWhile_ne_append d a rest hd]
  simp

theorem parsePFMHeader_structured (wtok htok etok payload : List Nat) (le : Bool)
    (vw vh : Int)
    (hw32 : (32 : Nat) ∉ wtok) (hh10 : (10 : Nat) ∉ htok) (he10 : (10 : Nat) ∉ etok)
    (hsw : stoi wtok = .ok vw) (hsh : stoi htok = .ok vh)
    (het : (etok = tok10 ∧ le = false) ∨ (etok = tokNeg10 ∧ le = true)) :
    parsePFMHeader (pfSig ++ 10 :: (wtok ++ 32 :: (htok ++ 10 :: (etok ++ 10 :: payload)))) =
      .ok ⟨toUInt32 vw, toUInt32 vh, le,
           pfSig.length + 1 + wtok.length + 1 + htok.length + 1 + etok.length + 1⟩ := by
  have g1 := getline_split pfSig (wtok ++ 32 :: (htok ++ 10 :: (etok ++ 10 :: payload))) 10
    (by decide)
  have g2 := getline_split wtok (htok ++ 10 :: (etok ++ 10 :: payload)) 32 hw32
  have g3 := getline_split htok (etok ++ 10 :: payload) 10 hh10
  have g4 := getline_split etok payload 10 he10
  simp only [parsePFMHeader, g1, g2, g3, g4, hsw, hsh]
  rw [if_neg (by simp)]
  rcases het with ⟨he, hle⟩ | ⟨he, hle⟩
  · subst he
    subst hle
    rw [if_pos rfl]
  · subst he
    subst hle
    rw [if_neg (by decide), if_pos rfl]

theorem flatten_length_uniform {α : Type} (L : Nat) :
    ∀ (l : List (List α)), (∀ a ∈ l, a.length = L) → l.flatten.length = l.length * L := by
  intro l
  induction l with
  | nil => intro _; simp
  | cons a as ih =>
    intro h
    rw [List.flatten_cons, List.length_append, ih (fun x hx => h x (by simp [hx])),
      h a (by simp), List.length_cons]
    ring

theorem flatten_getD_uniform (L : Nat) (d : F32) :
    ∀ (l : List (List F32)) (i j : Nat), (∀ a ∈ l, a.length = L) → i < l.length → j < L →
      l.flatten.getD (i * L + j) d = (l.getD i []).getD j d := by
  intro l
  induction l with
  | nil =>
    intro i j _ hi _
    simp at hi
  | cons a as ih =>
    intro i j hall hi hj
    rw [List.flatten_cons]
    cases i with
    | zero =>
      rw [show 0 * L + j = j from by ring]
      rw [List.getD_append _ _ _ _ (by rw [hall a (by simp)]; omega)]
      simp
    | succ i =>
      have hL : a.length = L := hall a (by simp)
      have he : (i + 1) * L = i * L + L := by ring
      rw [List.getD_append_right _ _ _ _ (by omega)]
      rw [show (i + 1) * L + j - a.length = i * L + j from by omega]
      rw [List.getD_cons_succ]
      exact ih i j (fun x hx => hall x (by simp [hx])) (by simpa using hi) hj

theorem f32_eta (ch : F32) (h : ch.length = 4) :
    [ch.getD 0 0, ch.getD 1 0, ch.getD 2 0, ch.getD 3 0] = ch := by
  rcases ch with _ | ⟨a, _ | ⟨b, _ | ⟨c, _ | ⟨e, _ | ⟨f, tl⟩⟩⟩⟩⟩ <;> simp_all

theorem readF32_flatten :
    ∀ (chunks : List F32) (pre : List Nat) (k : Nat),
      (∀ ch ∈ chunks, ch.length = 4) → k < chunks.length →
      readF32 (pre ++ chunks.flatten) (pre.length + 4 * k) = chunks.getD k [] := by
  intro chunks
  induction chunks with
  | nil =>
    intro pre k _ hk
    simp at hk
  | cons ch chs ih =>
    intro pre k hall hk
    have hch : ch.length = 4 := hall ch (by simp)
    cases k with
    | zero =>
      rw [List.flatten_cons]
      have hbyte : ∀ j, j < 4 →
          (pre ++ (ch ++ chs.flatten)).getD (pre.length + j) 0 = ch.getD j 0 := by
        intro j hj
        rw [List.getD_append_right _ _ _ _ (by omega)]
        rw [show pre.length + j - pre.length = j from by omega]
        exact List.getD_append _ _ _ _ (by omega)
      unfold readF32
      rw [show pre.length + 4 * 0 = pre.length + 0 from by ring]
      rw [show pre.length + 0 + 1 = pre.length + 1 from by ring]
      rw [show pre.length + 1 + 1 = pre.length + 2 from by ring]
      rw [show pre.length + 2 + 1 = pre.length + 3 from by ring]
      rw [hbyte 0 (by omega), hbyte 1 (by omega), hbyte 2 (by omega), hbyte 3 (by omega)]
      rw [List.getD_cons_zero]
      exact f32_eta ch hch
    | succ k =>
      rw [List.flatten_cons, ← List.append_assoc]
      rw [show pre.length + 4 * (k + 1) = (pre ++ ch).length + 4 * k from by
        simp [hch]; ring]
      rw [List.getD_cons_succ]
      exact ih (pre ++ ch) k (fun x hx => hall x (by simp [hx])) (by simpa using hk)

theorem readF32_length (data : List Nat) (off : Nat) : (readF32 data off).length = 4 := rfl

theorem pixel_index_decompose (w h i : Nat) (hi : i < h * w * 3) :
    ∃ y x c, y < h ∧ x < w ∧ c < 3 ∧ i = (y * w + x) * 3 + c := by
  have hw0 : 0 < w := by
    rcases Nat.eq_zero_or_pos w with h0 | h0
    · subst h0
      simp at hi
    · exact h0
  refine ⟨i / 3 / w, i / 3 % w, i % 3, ?_, Nat.mod_lt _ hw0, Nat.mod_lt _ (by omega), ?_⟩
  · have h1 : i / 3 < h * w := by
      rw [Nat.div_lt_iff_lt_mul (by omega : 0 < 3)]
      calc i < h * w * 3 := hi
        _ = h * w * 3 := rfl
    rw [Nat.div_lt_iff_lt_mul hw0]
    calc i / 3 < h * w := h1
      _ = h * w := rfl
  · have e1 := Nat.div_add_mod i 3
    have e2 := Nat.div_add_mod (i / 3) w
    have e3 : i / 3 / w * w = w * (i / 3 / w) := Nat.mul_comm _ _
    omega

theorem ReadPFM_ok_elim (host : Bool) (data : List Nat) (px0 px' : List F32) (hdr : PFMHeader)
    (hparse : parsePFMHeader data = .ok hdr)
    (hrun : ReadPFM host data px0 = (.ok hdr.xsize hdr.ysize, px')) :
    data.length = hdr.ysize * hdr.xsize * 3 * 4 % U32 + hdr.off ∧
    host = hdr.littleEndian ∧
    px' = (copyRows hdr.xsize data hdr.ysize
      (hdr.off, vecResizeF px0 (hdr.ysize * hdr.xsize % U32 * 3 % U32))).2 := by
  simp only [ReadPFM, hparse] at hrun
  by_cases h1 : data.length ≠ hdr.ysize * hdr.xsize % U32 * 3 % U32 * 4 % U32 + hdr.off
  · rw [if_pos h1] at hrun
    exact absurd hrun (by simp)
  rw [if_neg h1] at hrun
  by_cases h2 : host ≠ hdr.littleEndian
  · rw [if_pos h2] at hrun
    exact absurd hrun (by simp)
  rw [if_neg h2] at hrun
  refine ⟨?_, not_ne_iff.mp h2, ?_⟩
  · have h := not_ne_iff.mp h1
    rwa [mod_mul3_mul4] at h
  · have h := hrun
    simp only [Prod.mk.injEq] at h
    exact h.2.symm

theorem ReadPFM_ok_px (host : Bool) (data : List Nat) (px0 px' : List F32) (hdr : PFMHeader)
    (hparse : parsePFMHeader data = .ok hdr)
    (hpl : data.length = hdr.off + hdr.ysize * hdr.xsize * 3 * 4)
    (hrun : ReadPFM host data px0 = (.ok hdr.xsize hdr.ysize, px')) :
    hdr.ysize * hdr.xsize * 3 * 4 < U32 ∧
    px'.length = hdr.ysize * hdr.xsize * 3 ∧
    (∀ y x c, y < hdr.ysize → x < hdr.xsize → c < 3 →
      px'.getD ((y * hdr.xsize + x) * 3 + c) f32zero =
        readF32 data (hdr.off + 12 * hdr.xsize * (hdr.ysize - 1 - y) + 4 * (x * 3 + c))) := by
  obtain ⟨hck, hhost, hpx⟩ := ReadPFM_ok_elim host data px0 px' hdr hparse hrun
  have hlt : hdr.ysize * hdr.xsize * 3 * 4 < U32 := by
    have hmod : hdr.ysize * hdr.xsize * 3 * 4 % U32 < U32 :=
      Nat.mod_lt _ (by norm_num [U32])
    omega
  have hres : hdr.ysize * hdr.xsize % U32 * 3 % U32 = hdr.ysize * hdr.xsize * 3 := by
    rw [mod_mul3]
    exact Nat.mod_eq_of_lt (by omega)
  rw [hres] at hpx
  have hcomm : hdr.xsize * hdr.ysize = hdr.ysize * hdr.xsize := Nat.mul_comm _ _
  have hUb : hdr.xsize * hdr.ysize * 3 ≤ U32 := by omega
  have hLb : hdr.xsize * hdr.ysize * 3 ≤
      (vecResizeF px0 (hdr.ysize * hdr.xsize * 3)).length := by
    rw [vecResizeF_length]
    omega
  obtain ⟨hv, -⟩ := copyRows_spec hdr.xsize data hdr.ysize hdr.off
    (vecResizeF px0 (hdr.ysize * hdr.xsize * 3)) hUb hLb
  refine ⟨hlt, ?_, ?_⟩
  · rw [hpx, copyRows_snd_length, vecResizeF_length]
  · intro y x c hy hx hc
    rw [hpx]
    exact hv y x c hy hx hc

/-- C8 (amended): for every valid container accepted by the reader (payload
exactly `ysize*xsize*3` floats) whose declared endianness matches the host
and whose dimension tokens parse to nonnegative `int` values (at most
`INT_MAX`), re-serializing the image to the container format (signature
line, `<width> <height>` line, endianness line, samples with row order
reversed back) and re-reading yields exactly the same pixel data. -/
theorem readpfm_serialize_roundtrip (host : Bool) (data : List Nat) (px0 px1 px' : List F32)
    (hdr : PFMHeader)
    (hparse : parsePFMHeader data = .ok hdr)
    (hpl : data.length = hdr.off + hdr.ysize * hdr.xsize * 3 * 4)
    (hrun : ReadPFM host data px0 = (.ok hdr.xsize hdr.ysize, px'))
    (hx31 : hdr.xsize ≤ INT_MAX) (hy31 : hdr.ysize ≤ INT_MAX) :
    ReadPFM host (serializePFM hdr.xsize hdr.ysize hdr.littleEndian px') px1 =
      (.ok hdr.xsize hdr.ysize, px') := by
  obtain ⟨hck, hhost, -⟩ := ReadPFM_ok_elim host data px0 px' hdr hparse hrun
  obtain ⟨hlt, hlen', hvals⟩ := ReadPFM_ok_px host data px0 px' hdr hparse hpl hrun
  set w := hdr.xsize with hw
  set h := hdr.ysize with hh
  have hw32 : (32 : Nat) ∉ natToken w := fun hm =>
    absurd (natToken_digits w 32 hm) (by decide)
  have hh10 : (10 : Nat) ∉ natToken h := fun hm =>
    absurd (natToken_digits h 10 hm) (by decide)
  have he10 : (10 : Nat) ∉ (if hdr.littleEndian then tokNeg10 else tok10) := by
    cases hdr.littleEndian <;> decide
  have hetok : ((if hdr.littleEndian then tokNeg10 else tok10) = tok10 ∧
        hdr.littleEndian = false) ∨
      ((if hdr.littleEndian then tokNeg10 else tok10) = tokNeg10 ∧
        hdr.littleEndian = true) := by
    cases hdr.littleEndian
    · exact Or.inl ⟨rfl, rfl⟩
    · exact Or.inr ⟨rfl, rfl⟩
  set off2 := pfSig.length + 1 + (natToken w).length + 1 + (natToken h).length + 1 +
      (if hdr.littleEndian then tokNeg10 else tok10).length + 1 with hoff2
  have hser : serializePFM w h hdr.littleEndian px' =
      pfSig ++ 10 :: (natToken w ++ 32 :: (natToken h ++ 10 ::
        ((if hdr.littleEndian then tokNeg10 else tok10) ++ 10 ::
          (((List.range h).reverse.map fun y =>
            (px'.drop (y * w * 3)).take (w * 3)).flatten).flatten))) := by
    simp [serializePFM, List.append_assoc]
  have hparse2 : parsePFMHeader (serializePFM w h hdr.littleEndian px') =
      .ok ⟨w, h, hdr.littleEndian, off2⟩ := by
    rw [hser, parsePFMHeader_structured (natToken w) (natToken h) _ _ hdr.littleEndian w h
      hw32 hh10 he10 (stoi_natToken w hx31) (stoi_natToken h hy31) hetok]
    rw [toUInt32_coe w (by unfold INT_MAX at hx31; omega),
        toUInt32_coe h (by unfold INT_MAX at hy31; omega)]
  set rows := (List.range h).reverse.map
      (fun y => (px'.drop (y * w * 3)).take (w * 3)) with hrowsdef
  have hrowlen : ∀ r ∈ rows, r.length = w * 3 := by
    intro r hr
    rw [hrowsdef, List.mem_map] at hr
    obtain ⟨y, hy, hreq⟩ := hr
    rw [List.mem_reverse, List.mem_range] at hy
    rw [← hreq]
    simp only [List.length_take, List.length_drop, hlen']
    have hmul : (y + 1) * w ≤ h * w := Nat.mul_le_mul_right w (by omega)
    have e1 : (y + 1) * w = y * w + w := by ring
    omega
  have hchlen : ∀ ch ∈ px', ch.length = 4 := by
    intro ch hm
    rw [List.mem_iff_getElem] at hm
    obtain ⟨i, hi, hieq⟩ := hm
    obtain ⟨y, x, c, hy, hx, hc, hidx⟩ :=
      pixel_index_decompose w h i (by rw [← hlen']; exact hi)
    rw [← hieq, ← List.getD_eq_getElem px' f32zero hi, hidx, hvals y x c hy hx hc]
    exact readF32_length _ _
  have hchunks : ∀ ch ∈ rows.flatten, ch.length = 4 := by
    intro ch hm
    rw [List.mem_flatten] at hm
    obtain ⟨r, hr, hchr⟩ := hm
    rw [hrowsdef, List.mem_map] at hr
    obtain ⟨y, -, hreq⟩ := hr
    rw [← hreq] at hchr
    exact hchlen ch (List.mem_of_mem_drop (List.mem_of_mem_take hchr))
  have hrowcount : rows.length = h := by
    rw [hrowsdef]
    simp
  have hflatlen : rows.flatten.length = h * (w * 3) := by
    rw [flatten_length_uniform (w * 3) rows hrowlen, hrowcount]
  have hpaylen : rows.flatten.flatten.length = h * (w * 3) * 4 := by
    rw [flatten_length_uniform 4 rows.flatten hchunks, hflatlen]
  set pre := pfSig ++ [10] ++ natToken w ++ [32] ++ natToken h ++ [10] ++
      (if hdr.littleEndian then tokNeg10 else tok10) ++ [10] with hpredef
  have hser2 : serializePFM w h hdr.littleEndian px' = pre ++ rows.flatten.flatten := by
    rw [hpredef, hrowsdef]
    simp [serializePFM, List.append_assoc]
  have hprelen : pre.length = off2 := by
    rw [hpredef, hoff2]
    simp [List.length_append]
    omega
  have hserlen : (serializePFM w h hdr.littleEndian px').length =
      h * w * 3 * 4 % U32 + off2 := by
    rw [hser2, List.length_append, hprelen, hpaylen]
    have e : h * (w * 3) * 4 = h * w * 3 * 4 := by ring
    have hmod : h * w * 3 * 4 % U32 = h * w * 3 * 4 := Nat.mod_eq_of_lt hlt
    omega
  have hres2 : h * w % U32 * 3 % U32 = h * w * 3 := by
    rw [mod_mul3]
    exact Nat.mod_eq_of_lt (by omega)
  simp only [ReadPFM, hparse2]
  rw [if_neg (by
    simp only [ne_eq, not_not]
    rw [mod_mul3_mul4]
    exact hserlen)]
  rw [if_neg (by simp [hhost])]
  rw [hres2]
  have hcomm : w * h = h * w := Nat.mul_comm w h
  have hUb2 : w * h * 3 ≤ U32 := by omega
  have hLb2 : w * h * 3 ≤ (vecResizeF px1 (h * w * 3)).length := by
    rw [vecResizeF_length]
    omega
  obtain ⟨hv2, -⟩ := copyRows_spec w (serializePFM w h hdr.littleEndian px') h off2
    (vecResizeF px1 (h * w * 3)) hUb2 hLb2
  have hfinal : (copyRows w (serializePFM w h hdr.littleEndian px') h
      (off2, vecResizeF px1 (h * w * 3))).2 = px' := by
    apply List.ext_getElem
    · rw [copyRows_snd_length]
      show (vecResizeF px1 (h * w * 3)).length = px'.length
      rw [vecResizeF_length, hlen']
    · intro n h1 h2
      have hn3 : n < h * w * 3 := by
        have := h1
        rw [copyRows_snd_length] at this
        rwa [show ((off2, vecResizeF px1 (h * w * 3)) : Nat × List F32).2 =
          vecResizeF px1 (h * w * 3) from rfl, vecResizeF_length] at this
      obtain ⟨y, x, c, hy, hx, hc, hidx⟩ := pixel_index_decompose w h n hn3
      have hval2 := hv2 y x c hy hx hc
      have hk : off2 + 12 * w * (h - 1 - y) + 4 * (x * 3 + c) =
          pre.length + 4 * ((h - 1 - y) * (w * 3) + (x * 3 + c)) := by
        rw [hprelen]
        generalize h - 1 - y = k
        ring
      have hkb : (h - 1 - y) * (w * 3) + (x * 3 + c) < rows.flatten.length := by
        rw [hflatlen]
        have hmul := Nat.mul_le_mul_right (w * 3) (show h - 1 - y + 1 ≤ h by omega)
        have e : (h - 1 - y + 1) * (w * 3) = (h - 1 - y) * (w * 3) + w * 3 := by ring
        omega
      have hflt := readF32_flatten rows.flatten pre ((h - 1 - y) * (w * 3) + (x * 3 + c))
        hchunks hkb
      rw [hk] at hval2
      have hfltser : readF32 (serializePFM w h hdr.littleEndian px')
          (pre.length + 4 * ((h - 1 - y) * (w * 3) + (x * 3 + c))) =
          rows.flatten.getD ((h - 1 - y) * (w * 3) + (x * 3 + c)) [] := by
        rw [hser2]
        exact hflt
      rw [hfltser] at hval2
      have hrowget := flatten_getD_uniform (w * 3) ([] : F32) rows (h - 1 - y) (x * 3 + c)
        hrowlen (by rw [hrowcount]; omega) (by omega)
      rw [hrowget] at hval2
      have hrowy : rows.getD (h - 1 - y) [] = (px'.drop (y * w * 3)).take (w * 3) := by
        have hlt2 : h - 1 - y < rows.length := by
          rw [hrowcount]
          omega
        rw [List.getD_eq_getElem rows [] hlt2]
        simp only [hrowsdef, List.getElem_map, List.getElem_reverse, List.length_range,
          List.getElem_range]
        rw [show h - 1 - (h - 1 - y) = y from by omega]
      rw [hrowy] at hval2
      have hb1 : x * 3 + c < ((px'.drop (y * w * 3)).take (w * 3)).length := by
        simp only [List.length_take, List.length_drop, hlen']
        have hmul : (y + 1) * w ≤ h * w := Nat.mul_le_mul_right w (by omega)
        have e1 : (y + 1) * w = y * w + w := by ring
        omega
      have hb2 : y * w * 3 + (x * 3 + c) < px'.length := by
        rw [hlen']
        have hmul : (y + 1) * w ≤ h * w := Nat.mul_le_mul_right w (by omega)
        have e1 : (y + 1) * w = y * w + w := by ring
        omega
      have hrowelem : ((px'.drop (y * w * 3)).take (w * 3)).getD (x * 3 + c) [] =
          px'.getD (y * w * 3 + (x * 3 + c)) [] := by
        rw [List.getD_eq_getElem _ _ hb1, List.getD_eq_getElem px' ([] : F32) hb2]
        rw [List.getElem_take, List.getElem_drop]
      rw [hrowelem] at hval2
      rw [← List.getD_eq_getElem _ f32zero h1, ← List.getD_eq_getElem px' ([] : F32) h2]
      rw [hidx, hval2]
      congr 1
      omega
  rw [hfinal]

/-- C8 counterexample: the container `PF\n-1 0\n-1.0\n` is a valid container
(accepted by the reader: `std::stoi` returns -1, stored as `uint32_t`
4294967295, height 0, empty payload = the true payload size) with declared
endianness matching the host, yet re-serializing writes the width token
`4294967295`, on which the re-read's `std::stoi` throws `std::out_of_range`
(`.exn`): the round trip does not return pixel data at all, refuting the
claim for every valid container. -/
theorem pfm_roundtrip_fails_neg_width :
    ReadPFM true pfmNegWidth [] = (.ok 4294967295 0, []) ∧
    (ReadPFM true (serializePFM 4294967295 0 true []) []).1 = .exn := by
  constructor
  · decide
  · decide

theorem readpfm_serialize_roundtrip_witness :
    (parsePFMHeader pfm1x1 = .ok ⟨1, 1, true, 12⟩ ∧
     pfm1x1.length = 12 + 1 * 1 * 3 * 4 ∧
     ReadPFM true pfm1x1 [] = (.ok 1 1, [[1, 2, 3, 4], [5, 6, 7, 8], [9, 10, 11, 12]]) ∧
     (1 : Nat) ≤ INT_MAX) ∧
    ReadPFM true (serializePFM 1 1 true [[1, 2, 3, 4], [5, 6, 7, 8], [9, 10, 11, 12]]) [] =
      (.ok 1 1, [[1, 2, 3, 4], [5, 6, 7, 8], [9, 10, 11, 12]]) :=
  ⟨⟨by decide, by decide, by decide, by decide⟩,
   readpfm_serialize_roundtrip true pfm1x1 [] []
     [[1, 2, 3, 4], [5, 6, 7, 8], [9, 10, 11, 12]] ⟨1, 1, true, 12⟩
     (by decide) (by decide) (by decide) (by decide) (by decide)⟩
